import Mathlib

/-!
# Binary search over tagged values (`lib/tval/utval.c`)

A shallow embedding of the two `bfind` variants of `utval.c`, of the comparator
`iless_than`, and of the integer part of the value codec they are tested with.

C `int` variables are embedded as `Int`.  Every intermediate value of `bfind`
stays inside `[0, n]` (proved below), so no machine overflow can occur for any
`n` representable as an `int`.  The shift `cnt >> 1` is only executed under the
loop guard `cnt > 0`, where it is the floor division by two.

A read `arr[mid]` outside the sequence is undefined behaviour in C; the
embedding makes it explicit: the run stops and returns no index.
-/

namespace Tval

/-- One executed iteration of the `[low, low+cnt)` loop: the window on entry of
the iteration and the index `mid` whose element is read and handed to `cmp`. -/
structure Iter where
  low : Int
  cnt : Int
  mid : Int
deriving DecidableEq

/-- Result of running the `[low, low+cnt)` variant: the iterations executed, in
order, and the returned index (`none` when a read fell outside the sequence). -/
structure Run where
  iters : List Iter
  ret : Option Int
deriving DecidableEq

/-- One executed iteration of the `[min, max)` loop. -/
structure Iter2 where
  min : Int
  max : Int
  mid : Int
deriving DecidableEq

/-- Result of running the `[min, max)` variant. -/
structure Run2 where
  iters : List Iter2
  ret : Option Int
deriving DecidableEq

/-- The C expression `arr[i]` on a sequence with `arr.length` elements. -/
def readAt {α : Type} (arr : List α) (i : Int) : Option α :=
  if 0 ≤ i then arr[i.toNat]? else none

/-- The `while (cnt > 0)` loop of the first `bfind` (`utval.c` lines 49-56). -/
def bfindLoop {α : Type} (arr : List α) (val : α) (cmp : α → α → Bool)
    (low cnt : Int) : Run :=
  if cnt > 0 then                      -- while (cnt > 0)
    let stp := cnt / 2                 --   int stp = cnt >> 1;
    let mid := low + stp               --   int mid = low+stp;
    match readAt arr mid with          --   arr[mid]
    | none => ⟨[⟨low, cnt, mid⟩], none⟩
    | some e =>
      let r := if cmp e val            --   if (cmp(arr[mid], val))
               then bfindLoop arr val cmp (mid + 1) (cnt - (stp + 1))
                                       --     low = mid+1, cnt -= stp+1;
               else bfindLoop arr val cmp low stp
                                       --   else cnt = stp;
      ⟨⟨low, cnt, mid⟩ :: r.iters, r.ret⟩
  else ⟨[], some low⟩                  -- return low;
termination_by cnt.toNat
decreasing_by all_goals omega

/-- The first `bfind` (`#if 1`, `utval.c` lines 44-58): `low = 0, cnt = n`. -/
def bfind {α : Type} (arr : List α) (n : Int) (val : α) (cmp : α → α → Bool) : Run :=
  bfindLoop arr val cmp 0 n

/-- The `while (min < max)` loop of the second `bfind` (`utval.c` lines 70-74). -/
def bfind2Loop {α : Type} (arr : List α) (val : α) (cmp : α → α → Bool)
    (min max : Int) : Run2 :=
  if min < max then                    -- while (min < max)
    let mid := min + (max - min) / 2   --   int mid = min+((max-min)>>1);
    match readAt arr mid with          --   arr[mid]
    | none => ⟨[⟨min, max, mid⟩], none⟩
    | some e =>
      let tst := cmp e val             --   int tst = cmp(arr[mid],val);
      let r := if tst                  --   if (tst) min = mid+1; else max = mid;
               then bfind2Loop arr val cmp (mid + 1) max
               else bfind2Loop arr val cmp min mid
      ⟨⟨min, max, mid⟩ :: r.iters, r.ret⟩
  else ⟨[], some min⟩                  -- return min;
termination_by (max - min).toNat
decreasing_by all_goals omega

/-- The second `bfind` (`#else`, `utval.c` lines 65-76): `min = 0, max = n`. -/
def bfind2 {α : Type} (arr : List α) (n : Int) (val : α) (cmp : α → α → Bool) : Run2 :=
  bfind2Loop arr val cmp 0 n


/-! ## Orderings, sortedness -/

/-- Two values are equivalent under `cmp`: neither is less than the other. -/
def Equivalent {α : Type} (cmp : α → α → Bool) (a b : α) : Prop :=
  cmp a b = false ∧ cmp b a = false

/-- On the values listed in `S`, `cmp` is a strict ordering: irreflexive and
transitive. -/
structure StrictOn {α : Type} (cmp : α → α → Bool) (S : List α) : Prop where
  irrefl : ∀ a ∈ S, cmp a a = false
  trans : ∀ a ∈ S, ∀ b ∈ S, ∀ c ∈ S, cmp a b = true → cmp b c = true → cmp a c = true

/-- On the values listed in `S`, `cmp` is a strict weak ordering: a strict
ordering whose equivalence (incomparability) is transitive. -/
structure StrictWeakOn {α : Type} (cmp : α → α → Bool) (S : List α)
    extends StrictOn cmp S : Prop where
  equiv_trans : ∀ a ∈ S, ∀ b ∈ S, ∀ c ∈ S,
    Equivalent cmp a b → Equivalent cmp b c → Equivalent cmp a c

/-- The sequence is sorted ascending under `cmp`: no element is less than its
predecessor. -/
def SortedUnder {α : Type} (cmp : α → α → Bool) (arr : List α) : Prop :=
  List.Chain' (fun a b => cmp b a = false) arr

/-- The elements for which `cmp e val` holds all come before the others. -/
def PartitionedBy {α : Type} (cmp : α → α → Bool) (val : α) (arr : List α) : Prop :=
  List.Pairwise (fun a b => cmp b val = true → cmp a val = true) arr

/-! ## The integer part of the value codec, and the integer comparator -/

/-- Modelled from the spec: `tval.h`, which defines the value codec, is not among
the sources.  The tags of a value, one per classification predicate used in
`utval.c` (`tvisnul`, `tvisnan`, `tvisnil`, `tvislog`, `tvisint`, `tvisnum`,
`tvisins`, `tvisfun`, `tvisptr`, `tvisstr`, `tvisarr`, `tvisobj`, `tvisref`). -/
inductive Tag where
  | TNul | TNan | TNil | TLog | TInt | TNum | TIns
  | TFun | TPtr | TStr | TArr | TObj | TRef
deriving DecidableEq

/-- Modelled from the spec: `val_t` of the missing `tval.h`.  A value has exactly
one tag and carries its payload in a field of fixed width. -/
structure val_t where
  tag : Tag
  payload : Nat
deriving DecidableEq

/-- Modelled from the spec: `tvint` of the missing `tval.h`.  The constructor
accepts the native signed integer, keeps the bits that fit the payload field of
`w` bits (an out-of-range integer wraps) and always tags the value as an
integer. -/
def tvint (w : Nat) (i : Int) : val_t :=
  ⟨Tag.TInt, (i % 2 ^ w).toNat⟩

/-- Modelled from the spec: `tvisint` of the missing `tval.h`, the predicate of
the integer tag. -/
def tvisint (v : val_t) : Bool :=
  decide (v.tag = Tag.TInt)

/-- Modelled from the spec: `inttv` of the missing `tval.h`.  The accessor reads
the payload field of `w` bits back as a signed integer. -/
def inttv (w : Nat) (v : val_t) : Int :=
  if (v.payload : Int) % 2 ^ w < 2 ^ (w - 1) then (v.payload : Int) % 2 ^ w
  else (v.payload : Int) % 2 ^ w - 2 ^ w

/-- The comparator `iless_than` (`utval.c` lines 22-28) over a codec whose payload
field has `w` bits. -/
def iless_than (w : Nat) (a b : val_t) : Bool :=
  let aa := inttv w a                  -- i64_t aa = inttv(a);
  let bb := inttv w b                  -- i64_t bb = inttv(b);
  decide (aa < bb)                     -- return aa < bb;

/-- The array `iarr` of the second block of `perftv` (`utval.c` lines 303-304). -/
def iarr9 : List val_t :=
  [tvint 47 5, tvint 47 10, tvint 47 10, tvint 47 10, tvint 47 20,
   tvint 47 30, tvint 47 30, tvint 47 30, tvint 47 40]

/-- The array `iarr` of the first block of `perftv` (`utval.c` lines 279-280). -/
def iarr8 : List val_t :=
  [tvint 47 5, tvint 47 10, tvint 47 10, tvint 47 10,
   tvint 47 20, tvint 47 20, tvint 47 20, tvint 47 30]

/-- A comparator that is integer less-than except against the target `0`, which
it declares greater than `3` only. -/
def skewed_less (a b : Int) : Bool :=
  if b = 0 then decide (a = 3) else decide (a < b)

/-! ## Unfolding the loops -/

theorem bfindLoop_exit {α : Type} (arr : List α) (val : α) (cmp : α → α → Bool)
    (low cnt : Int) (h : cnt ≤ 0) :
    bfindLoop arr val cmp low cnt = ⟨[], some low⟩ := by
  rw [bfindLoop]
  have h' : ¬ cnt > 0 := by omega
  simp [h']

theorem bfindLoop_oob {α : Type} (arr : List α) (val : α) (cmp : α → α → Bool)
    (low cnt : Int) (h : 0 < cnt) (hr : readAt arr (low + cnt / 2) = none) :
    bfindLoop arr val cmp low cnt = ⟨[⟨low, cnt, low + cnt / 2⟩], none⟩ := by
  rw [bfindLoop]
  simp [h, hr]

theorem bfindLoop_true {α : Type} (arr : List α) (val : α) (cmp : α → α → Bool)
    (low cnt : Int) (e : α) (h : 0 < cnt) (hr : readAt arr (low + cnt / 2) = some e)
    (hc : cmp e val = true) :
    bfindLoop arr val cmp low cnt =
      ⟨⟨low, cnt, low + cnt / 2⟩ ::
          (bfindLoop arr val cmp (low + cnt / 2 + 1) (cnt - (cnt / 2 + 1))).iters,
        (bfindLoop arr val cmp (low + cnt / 2 + 1) (cnt - (cnt / 2 + 1))).ret⟩ := by
  rw [bfindLoop]
  simp [h, hr, hc]

theorem bfindLoop_false {α : Type} (arr : List α) (val : α) (cmp : α → α → Bool)
    (low cnt : Int) (e : α) (h : 0 < cnt) (hr : readAt arr (low + cnt / 2) = some e)
    (hc : cmp e val = false) :
    bfindLoop arr val cmp low cnt =
      ⟨⟨low, cnt, low + cnt / 2⟩ :: (bfindLoop arr val cmp low (cnt / 2)).iters,
        (bfindLoop arr val cmp low (cnt / 2)).ret⟩ := by
  rw [bfindLoop]
  simp [h, hr, hc]

theorem readAt_eq_some {α : Type} (arr : List α) (i : Int) (h0 : 0 ≤ i)
    (h1 : i < arr.length) : ∃ e, readAt arr i = some e ∧ arr[i.toNat]? = some e := by
  have hlt : i.toNat < arr.length := by omega
  refine ⟨arr[i.toNat], ?_, ?_⟩
  · simp [readAt, h0, List.getElem?_eq_getElem hlt]
  · exact List.getElem?_eq_getElem hlt

/-- Boundary invariant of the first loop, with no assumption on `cmp` or on the
order of `arr`: started on a window inside the sequence, the loop returns an
index `r` of the window such that the element just before `r` (if it is in the
window) compared true and the element at `r` (if it is in the window) compared
false. -/
theorem bfindLoop_boundary {α : Type} (arr : List α) (val : α) (cmp : α → α → Bool) :
    ∀ (k : Nat) (low cnt : Int), cnt.toNat ≤ k → 0 ≤ low → 0 ≤ cnt →
      low + cnt ≤ arr.length →
      ∃ r : Int, (bfindLoop arr val cmp low cnt).ret = some r ∧ low ≤ r ∧ r ≤ low + cnt ∧
        (low < r → ∃ e, arr[(r - 1).toNat]? = some e ∧ cmp e val = true) ∧
        (r < low + cnt → ∃ e, arr[r.toNat]? = some e ∧ cmp e val = false) := by
  intro k
  induction k with
  | zero =>
    intro low cnt hk h0 hc hn
    have : cnt ≤ 0 := by omega
    rw [bfindLoop_exit arr val cmp low cnt this]
    exact ⟨low, rfl, le_refl _, by omega, fun h => absurd h (lt_irrefl _), fun h => by omega⟩
  | succ k ih =>
    intro low cnt hk h0 hc hn
    by_cases hpos : 0 < cnt
    · obtain ⟨e, hr, he⟩ := readAt_eq_some arr (low + cnt / 2) (by omega) (by omega)
      cases hcmp : cmp e val with
      | true =>
        rw [bfindLoop_true arr val cmp low cnt e hpos hr hcmp]
        obtain ⟨r, hret, hlo, hhi, hL, hR⟩ :=
          ih (low + cnt / 2 + 1) (cnt - (cnt / 2 + 1)) (by omega) (by omega) (by omega)
            (by omega)
        refine ⟨r, hret, by omega, by omega, ?_, ?_⟩
        · intro _
          by_cases hm : low + cnt / 2 + 1 < r
          · exact hL hm
          · have hrm : r - 1 = low + cnt / 2 := by omega
            exact ⟨e, by rw [hrm]; exact he, hcmp⟩
        · intro h
          exact hR (by omega)
      | false =>
        rw [bfindLoop_false arr val cmp low cnt e hpos hr hcmp]
        obtain ⟨r, hret, hlo, hhi, hL, hR⟩ :=
          ih low (cnt / 2) (by omega) h0 (by omega) (by omega)
        refine ⟨r, hret, hlo, by omega, hL, ?_⟩
        intro _
        by_cases hm : r < low + cnt / 2
        · exact hR hm
        · have hrm : r = low + cnt / 2 := by omega
          exact ⟨e, by rw [hrm]; exact he, hcmp⟩
    · have : cnt ≤ 0 := by omega
      rw [bfindLoop_exit arr val cmp low cnt this]
      exact ⟨low, rfl, le_refl _, by omega, fun h => absurd h (lt_irrefl _), fun h => by omega⟩

/-! ## Orderings: consequences -/

theorem StrictOn.asymm {α : Type} {cmp : α → α → Bool} {S : List α} (h : StrictOn cmp S)
    {a b : α} (ha : a ∈ S) (hb : b ∈ S) (hab : cmp a b = true) : cmp b a = false := by
  cases hba : cmp b a with
  | false => rfl
  | true =>
    have := h.trans a ha b hb a ha hab hba
    rw [h.irrefl a ha] at this
    exact absurd this (by decide)

/-- Negative transitivity of a strict weak ordering. -/
theorem StrictWeakOn.neg_trans {α : Type} {cmp : α → α → Bool} {S : List α}
    (h : StrictWeakOn cmp S) {a b c : α} (ha : a ∈ S) (hb : b ∈ S) (hc : c ∈ S)
    (hac : cmp a c = true) : cmp a b = true ∨ cmp b c = true := by
  cases hab : cmp a b with
  | true => exact Or.inl rfl
  | false =>
    cases hbc : cmp b c with
    | true => exact Or.inr rfl
    | false =>
      exfalso
      have hba : cmp b a = false := by
        cases hba : cmp b a with
        | false => rfl
        | true =>
          have := h.trans b hb a ha c hc hba hac
          rw [hbc] at this
          exact absurd this (by decide)
      have hcb : cmp c b = false := by
        cases hcb : cmp c b with
        | false => rfl
        | true =>
          have := h.trans a ha c hc b hb hac hcb
          rw [hab] at this
          exact absurd this (by decide)
      have := (h.equiv_trans a ha b hb c hc ⟨hab, hba⟩ ⟨hbc, hcb⟩).1
      rw [hac] at this
      exact absurd this (by decide)

/-- Under a strict weak ordering a sequence without adjacent inversion has no
inversion at all. -/
theorem SortedUnder.pairwise {α : Type} {cmp : α → α → Bool} {S : List α}
    (h : StrictWeakOn cmp S) :
    ∀ (arr : List α), (∀ e ∈ arr, e ∈ S) → SortedUnder cmp arr →
      List.Pairwise (fun a b => cmp b a = false) arr := by
  intro arr
  induction arr with
  | nil => intro _ _; exact List.Pairwise.nil
  | cons a t ih =>
    intro hS hs
    have hsT : SortedUnder cmp t := List.Chain'.tail hs
    have hpT := ih (fun e he => hS e (List.mem_cons_of_mem _ he)) hsT
    refine List.Pairwise.cons ?_ hpT
    intro c hc
    cases t with
    | nil => exact absurd hc (List.not_mem_nil c)
    | cons b t' =>
      have hba : cmp b a = false := by
        have := hs
        unfold SortedUnder at this
        rw [List.chain'_cons] at this
        exact this.1
      rcases List.mem_cons.mp hc with rfl | hct
      · exact hba
      · have hcb : cmp c b = false := (List.pairwise_cons.mp hpT).1 c hct
        cases hca : cmp c a with
        | false => rfl
        | true =>
          have haS : a ∈ S := hS a (List.mem_cons_self _ _)
          have hbS : b ∈ S := hS b (List.mem_cons_of_mem _ (List.mem_cons_self _ _))
          have hcS : c ∈ S := hS c (List.mem_cons_of_mem _ hc)
          rcases h.neg_trans hcS hbS haS hca with h1 | h1
          · rw [hcb] at h1; exact absurd h1 (by decide)
          · rw [hba] at h1; exact absurd h1 (by decide)

/-! ## From the boundary to the count -/

/-- In a sequence whose first `r` elements satisfy `p` and whose other elements
do not, `r` is the number of elements satisfying `p`. -/
theorem countP_of_split {α : Type} (p : α → Bool) (arr : List α) (r : Nat)
    (hr : r ≤ arr.length)
    (hL : ∀ i e, i < r → arr[i]? = some e → p e = true)
    (hR : ∀ i e, r ≤ i → arr[i]? = some e → p e = false) :
    arr.countP p = r := by
  have h1 : (arr.take r).countP p = r := by
    have hlen : (arr.take r).length = r := by simp [List.length_take, hr]
    have : (arr.take r).countP p = (arr.take r).length := by
      rw [List.countP_eq_length]
      intro a ha
      obtain ⟨i, hi, rfl⟩ := List.mem_take_iff_getElem.mp ha
      have hi' : i < arr.length := by omega
      exact hL i _ (by omega) (List.getElem?_eq_getElem hi')
    rw [this, hlen]
  have h2 : (arr.drop r).countP p = 0 := by
    rw [List.countP_eq_zero]
    intro a ha
    obtain ⟨i, hi, rfl⟩ := List.mem_drop_iff_getElem.mp ha
    have hi' : r + i < arr.length := by omega
    have := hR (r + i) _ (by omega) (List.getElem?_eq_getElem hi')
    simp [this]
  calc arr.countP p = (arr.take r ++ arr.drop r).countP p := by rw [List.take_append_drop]
    _ = r := by rw [List.countP_append, h1, h2]; rfl

/-- Result of the first `bfind` on a partitioned sequence: the index returned is
the partition point, which is the number of elements less than `val`. -/
theorem bfind_of_partitioned {α : Type} (arr : List α) (n : Int) (val : α)
    (cmp : α → α → Bool) (hn : n = arr.length) (hp : PartitionedBy cmp val arr) :
    ∃ r : Nat, (bfind arr n val cmp).ret = some (r : Int) ∧ r ≤ arr.length ∧
      (∀ i e, i < r → arr[i]? = some e → cmp e val = true) ∧
      (∀ i e, r ≤ i → arr[i]? = some e → cmp e val = false) ∧
      arr.countP (fun e => cmp e val) = r := by
  obtain ⟨r, hret, h0, hle, hL, hR⟩ :=
    bfindLoop_boundary arr val cmp n.toNat 0 n (le_refl _) (le_refl _) (by omega) (by omega)
  have hpw := List.pairwise_iff_getElem.mp hp
  have hrn : r.toNat ≤ arr.length := by omega
  have hleft : ∀ i e, i < r.toNat → arr[i]? = some e → cmp e val = true := by
    intro i e hi hie
    obtain ⟨e', he', hc'⟩ := hL (by omega)
    by_cases hlast : i = (r - 1).toNat
    · rw [← hlast, hie] at he'
      cases he'
      exact hc'
    · have hj : (r - 1).toNat < arr.length := by omega
      have hi' : i < arr.length := by omega
      have hie' : arr[i] = e := by
        have := List.getElem?_eq_getElem hi'
        rw [hie] at this
        exact (Option.some.inj this).symm
      have hje' : arr[(r - 1).toNat] = e' := by
        have := List.getElem?_eq_getElem hj
        rw [he'] at this
        exact (Option.some.inj this).symm
      have := hpw i (r - 1).toNat hi' hj (by omega)
      rw [hie', hje'] at this
      exact this hc'
  have hright : ∀ i e, r.toNat ≤ i → arr[i]? = some e → cmp e val = false := by
    intro i e hi hie
    have hi' : i < arr.length := by
      by_contra hcon
      rw [List.getElem?_eq_none (by omega)] at hie
      cases hie
    obtain ⟨e', he', hc'⟩ := hR (by omega)
    by_cases hfirst : i = r.toNat
    · rw [← hfirst, hie] at he'
      cases he'
      exact hc'
    · have hj : r.toNat < arr.length := by omega
      have hie' : arr[i] = e := by
        have := List.getElem?_eq_getElem hi'
        rw [hie] at this
        exact (Option.some.inj this).symm
      have hje' : arr[r.toNat] = e' := by
        have := List.getElem?_eq_getElem hj
        rw [he'] at this
        exact (Option.some.inj this).symm
      have := hpw r.toNat i hj hi' (by omega)
      rw [hie', hje'] at this
      cases hce : cmp e val with
      | false => rfl
      | true =>
        have := this hce
        rw [hc'] at this
        exact absurd this (by decide)
  refine ⟨r.toNat, ?_, hrn, hleft, hright, countP_of_split _ arr r.toNat hrn hleft hright⟩
  rw [show bfind arr n val cmp = bfindLoop arr val cmp 0 n from rfl, hret]
  congr 1
  omega

/-- A sequence without inversion is partitioned by `val` as soon as `cmp · val`
respects the order of the elements. -/
theorem partitioned_of_compat {α : Type} (cmp : α → α → Bool) (val : α) (arr : List α)
    (hpw : List.Pairwise (fun a b => cmp b a = false) arr)
    (hcompat : ∀ a ∈ arr, ∀ b ∈ arr, cmp b a = false → cmp b val = true → cmp a val = true) :
    PartitionedBy cmp val arr := by
  unfold PartitionedBy
  rw [List.pairwise_iff_getElem] at hpw ⊢
  intro i j hi hj hij
  exact hcompat arr[i] (List.getElem_mem hi) arr[j] (List.getElem_mem hj) (hpw i j hi hj hij)

/-- Compatibility of `cmp · val` with the order of the elements, from a strict
weak ordering that covers `val` as well. -/
theorem compat_of_strictWeak {α : Type} {cmp : α → α → Bool} {val : α} {arr : List α}
    (h : StrictWeakOn cmp (val :: arr)) :
    ∀ a ∈ arr, ∀ b ∈ arr, cmp b a = false → cmp b val = true → cmp a val = true := by
  intro a ha b hb hba hbv
  rcases h.neg_trans (List.mem_cons_of_mem _ hb) (List.mem_cons_of_mem _ ha)
    (List.mem_cons_self _ _) hbv with h1 | h1
  · rw [hba] at h1; exact absurd h1 (by decide)
  · exact h1

/-- Lower-bound behaviour of the first `bfind` on a sorted sequence, the strict
weak ordering covering the target: the index returned splits the sequence into
the elements less than `val` and the others, and when some element is equivalent
to `val` the element at the returned index is. -/
theorem bfind_sorted {α : Type} (arr : List α) (n : Int) (val : α) (cmp : α → α → Bool)
    (hn : n = arr.length) (hswo : StrictWeakOn cmp (val :: arr))
    (hs : SortedUnder cmp arr) :
    ∃ r : Nat, (bfind arr n val cmp).ret = some (r : Int) ∧ r ≤ arr.length ∧
      (∀ i e, i < r → arr[i]? = some e → cmp e val = true) ∧
      (∀ i e, r ≤ i → arr[i]? = some e → cmp e val = false) ∧
      arr.countP (fun e => cmp e val) = r ∧
      (∀ x ∈ arr, Equivalent cmp x val → ∃ e, arr[r]? = some e ∧ Equivalent cmp e val) := by
  have hpw : List.Pairwise (fun a b => cmp b a = false) arr :=
    SortedUnder.pairwise hswo arr (fun e he => List.mem_cons_of_mem _ he) hs
  obtain ⟨r, hret, hlen, hL, hR, hcount⟩ :=
    bfind_of_partitioned arr n val cmp hn
      (partitioned_of_compat cmp val arr hpw (compat_of_strictWeak hswo))
  refine ⟨r, hret, hlen, hL, hR, hcount, ?_⟩
  intro x hx hxv
  obtain ⟨k, hk, rfl⟩ := List.mem_iff_getElem.mp hx
  have hrk : r ≤ k := by
    by_contra hcon
    have := hL k _ (by omega) (List.getElem?_eq_getElem hk)
    rw [hxv.1] at this
    exact absurd this (by decide)
  have hr : r < arr.length := by omega
  refine ⟨arr[r], List.getElem?_eq_getElem hr, hR r _ (le_refl _) (List.getElem?_eq_getElem hr), ?_⟩
  cases hvr : cmp val arr[r] with
  | false => rfl
  | true =>
    exfalso
    have hkr : cmp arr[k] arr[r] = false := by
      by_cases hEq : r = k
      · subst hEq
        exact hswo.irrefl _ (List.mem_cons_of_mem _ hx)
      · exact (List.pairwise_iff_getElem.mp hpw) r k hr hk (by omega)
    rcases hswo.neg_trans (List.mem_cons_self _ _) (List.mem_cons_of_mem _ hx)
      (List.mem_cons_of_mem _ (List.getElem_mem hr)) hvr with h1 | h1
    · rw [hxv.2] at h1; exact absurd h1 (by decide)
    · rw [hkr] at h1; exact absurd h1 (by decide)


/-! ## The two variants step together -/

/-- The iteration of the `[low, low+cnt)` loop that corresponds to an iteration of
the `[min, max)` loop. -/
theorem bfind2Loop_eq {α : Type} (arr : List α) (val : α) (cmp : α → α → Bool) :
    ∀ (k : Nat) (min max : Int), (max - min).toNat ≤ k →
      (bfind2Loop arr val cmp min max).ret = (bfindLoop arr val cmp min (max - min)).ret ∧
      (bfind2Loop arr val cmp min max).iters.map
          (fun i => (⟨i.min, i.max - i.min, i.mid⟩ : Iter))
        = (bfindLoop arr val cmp min (max - min)).iters := by
  intro k
  induction k with
  | zero =>
    intro min max hk
    have h1 : ¬ min < max := by omega
    have h2 : ¬ max - min > 0 := by omega
    rw [bfind2Loop, bfindLoop]
    simp [h1, h2]
  | succ k ih =>
    intro min max hk
    by_cases hlt : min < max
    · have hpos : max - min > 0 := by omega
      rw [bfind2Loop, bfindLoop]
      simp only [hlt, hpos, if_true]
      cases hr : readAt arr (min + (max - min) / 2) with
      | none => simp
      | some e =>
        cases hc : cmp e val with
        | true =>
          have harg : max - min - ((max - min) / 2 + 1) = max - (min + (max - min) / 2 + 1) := by
            omega
          have := ih (min + (max - min) / 2 + 1) max (by omega)
          simp only [hc, if_true, List.map_cons, harg]
          exact ⟨this.1, by rw [this.2]⟩
        | false =>
          have harg : (max - min) / 2 = min + (max - min) / 2 - min := by omega
          have := ih min (min + (max - min) / 2) (by omega)
          rw [← harg] at this
          simp only [hc, Bool.false_eq_true, if_false, List.map_cons]
          exact ⟨this.1, by rw [this.2]⟩
    · have h2 : ¬ max - min > 0 := by omega
      rw [bfind2Loop, bfindLoop]
      simp [hlt, h2]

/-! ## Windows and iteration counts -/

/-- Every iteration of the first loop works on a sub-window of the initial window
and reads the element in the middle of its window. -/
theorem bfindLoop_window {α : Type} (arr : List α) (val : α) (cmp : α → α → Bool) :
    ∀ (k : Nat) (low cnt : Int), cnt.toNat ≤ k →
      ∀ it ∈ (bfindLoop arr val cmp low cnt).iters,
        low ≤ it.low ∧ it.low + it.cnt ≤ low + cnt ∧ 0 < it.cnt ∧
          it.mid = it.low + it.cnt / 2 := by
  intro k
  induction k with
  | zero =>
    intro low cnt hk it hit
    rw [bfindLoop_exit arr val cmp low cnt (by omega)] at hit
    exact absurd hit (List.not_mem_nil it)
  | succ k ih =>
    intro low cnt hk it hit
    by_cases hpos : 0 < cnt
    · cases hr : readAt arr (low + cnt / 2) with
      | none =>
        rw [bfindLoop_oob arr val cmp low cnt hpos hr] at hit
        rw [List.mem_singleton] at hit
        subst hit
        exact ⟨le_refl _, le_refl _, hpos, rfl⟩
      | some e =>
        cases hc : cmp e val with
        | true =>
          rw [bfindLoop_true arr val cmp low cnt e hpos hr hc] at hit
          rcases List.mem_cons.mp hit with rfl | hit'
          · exact ⟨le_refl _, le_refl _, hpos, rfl⟩
          · have := ih (low + cnt / 2 + 1) (cnt - (cnt / 2 + 1)) (by omega) it hit'
            exact ⟨by omega, by omega, this.2.2.1, this.2.2.2⟩
        | false =>
          rw [bfindLoop_false arr val cmp low cnt e hpos hr hc] at hit
          rcases List.mem_cons.mp hit with rfl | hit'
          · exact ⟨le_refl _, le_refl _, hpos, rfl⟩
          · have := ih low (cnt / 2) (by omega) it hit'
            exact ⟨by omega, by omega, this.2.2.1, this.2.2.2⟩
    · rw [bfindLoop_exit arr val cmp low cnt (by omega)] at hit
      exact absurd hit (List.not_mem_nil it)

/-- The first iteration recorded starts from the window the loop is entered with,
and the window of an iteration is at most half the window of the one before. -/
theorem bfindLoop_halving {α : Type} (arr : List α) (val : α) (cmp : α → α → Bool) :
    ∀ (k : Nat) (low cnt : Int), cnt.toNat ≤ k →
      (∀ it ∈ (bfindLoop arr val cmp low cnt).iters.head?, it.cnt = cnt) ∧
      List.Chain' (fun a b : Iter => b.cnt ≤ a.cnt / 2)
        (bfindLoop arr val cmp low cnt).iters := by
  intro k
  induction k with
  | zero =>
    intro low cnt hk
    rw [bfindLoop_exit arr val cmp low cnt (by omega)]
    simp
  | succ k ih =>
    intro low cnt hk
    by_cases hpos : 0 < cnt
    · cases hr : readAt arr (low + cnt / 2) with
      | none =>
        rw [bfindLoop_oob arr val cmp low cnt hpos hr]
        simp
      | some e =>
        cases hc : cmp e val with
        | true =>
          rw [bfindLoop_true arr val cmp low cnt e hpos hr hc]
          obtain ⟨hhead, hchain⟩ := ih (low + cnt / 2 + 1) (cnt - (cnt / 2 + 1)) (by omega)
          refine ⟨by simp, ?_⟩
          rw [List.chain'_cons']
          refine ⟨?_, hchain⟩
          intro y hy
          have := hhead y hy
          show y.cnt ≤ cnt / 2
          omega
        | false =>
          rw [bfindLoop_false arr val cmp low cnt e hpos hr hc]
          obtain ⟨hhead, hchain⟩ := ih low (cnt / 2) (by omega)
          refine ⟨by simp, ?_⟩
          rw [List.chain'_cons']
          refine ⟨?_, hchain⟩
          intro y hy
          have := hhead y hy
          show y.cnt ≤ cnt / 2
          omega
    · rw [bfindLoop_exit arr val cmp low cnt (by omega)]
      simp

/-- Halving a window of at least two elements lowers the logarithm by one. -/
theorem log_half_succ (c : Nat) (h : 2 ≤ c) : Nat.log 2 (c / 2) + 1 = Nat.log 2 c := by
  rw [Nat.log_of_one_lt_of_le (by decide : 1 < 2) h]

/-- The first loop executes at most `floor(log2 cnt) + 1` iterations. -/
theorem bfindLoop_iters_length {α : Type} (arr : List α) (val : α) (cmp : α → α → Bool) :
    ∀ (k : Nat) (low cnt : Int), cnt.toNat ≤ k → 0 < cnt →
      (bfindLoop arr val cmp low cnt).iters.length ≤ Nat.log 2 cnt.toNat + 1 := by
  intro k
  induction k with
  | zero =>
    intro low cnt hk hpos
    omega
  | succ k ih =>
    intro low cnt hk hpos
    have hrec : ∀ (low' cnt' : Int), cnt' ≤ cnt / 2 →
        (bfindLoop arr val cmp low' cnt').iters.length + 1 ≤ Nat.log 2 cnt.toNat + 1 := by
      intro low' cnt' hle
      by_cases hpos' : 0 < cnt'
      · have h1 := ih low' cnt' (by omega) hpos'
        have h2 : Nat.log 2 cnt'.toNat ≤ Nat.log 2 (cnt.toNat / 2) :=
          Nat.log_mono_right (by omega)
        have h3 := log_half_succ cnt.toNat (by omega)
        omega
      · rw [bfindLoop_exit arr val cmp low' cnt' (by omega)]
        simp
    cases hr : readAt arr (low + cnt / 2) with
    | none =>
      rw [bfindLoop_oob arr val cmp low cnt hpos hr]
      simp
    | some e =>
      cases hc : cmp e val with
      | true =>
        rw [bfindLoop_true arr val cmp low cnt e hpos hr hc]
        exact hrec _ _ (by omega)
      | false =>
        rw [bfindLoop_false arr val cmp low cnt e hpos hr hc]
        exact hrec _ _ (le_refl _)

/-! ## The integer codec -/

/-- The payload of an integer value, read back modulo the field width, is the
residue of the integer. -/
theorem tvint_payload (w : Nat) (i : Int) :
    ((tvint w i).payload : Int) % 2 ^ w = i % 2 ^ w := by
  have hpos : (0 : Int) < 2 ^ w := by positivity
  have hnn : 0 ≤ i % 2 ^ w := Int.emod_nonneg _ (ne_of_gt hpos)
  show (((i % 2 ^ w).toNat : Nat) : Int) % 2 ^ w = i % 2 ^ w
  rw [Int.toNat_of_nonneg hnn, Int.emod_emod_of_dvd _ (dvd_refl _)]

/-- Residue of an integer of magnitude below half the field. -/
theorem emod_of_small (m i : Int) (hlo : -m < i) (hhi : i < m) (hm : 0 < m) :
    (0 ≤ i → i % (2 * m) = i) ∧ (i < 0 → i % (2 * m) = i + 2 * m) := by
  constructor
  · intro h0
    exact Int.emod_eq_of_lt h0 (by omega)
  · intro hneg
    rw [← Int.add_emod_self]
    exact Int.emod_eq_of_lt (by omega) (by omega)

/-- The comparator `iless_than` is a strict weak ordering on any set of values:
it is the integer order of the decoded payloads. -/
theorem iless_than_strictWeak (w : Nat) (S : List val_t) : StrictWeakOn (iless_than w) S := by
  refine ⟨⟨?_, ?_⟩, ?_⟩
  · intro a _
    simp [iless_than]
  · intro a _ b _ c _ hab hbc
    simp only [iless_than, decide_eq_true_eq] at hab hbc ⊢
    omega
  · intro a _ b _ c _ hab hbc
    simp only [Equivalent, iless_than, decide_eq_false_iff_not] at hab hbc ⊢
    omega

/-! ## The claims about the search -/

/-- C1: on a sequence of `n` values sorted ascending under a comparator that is a
strict weak ordering on the elements and the target, `bfind` returns the number
of elements `e` with `cmp e val` true. -/
theorem bfind_eq_count {α : Type} (arr : List α) (n : Int) (val : α) (cmp : α → α → Bool)
    (hn : n = arr.length) (hswo : StrictWeakOn cmp (val :: arr))
    (hs : SortedUnder cmp arr) :
    (bfind arr n val cmp).ret = some ((arr.countP (fun e => cmp e val) : Nat) : Int) := by
  obtain ⟨r, hret, _, _, _, hcount, _⟩ := bfind_sorted arr n val cmp hn hswo hs
  rw [hret, hcount]

/-- C1, at the array of `perftv` with target `10`: the count, and the index
returned, is `1`. -/
theorem bfind_eq_count_witness :
    ((9 : Int) = iarr9.length ∧ StrictWeakOn (iless_than 47) (tvint 47 10 :: iarr9) ∧
      SortedUnder (iless_than 47) iarr9) ∧
    iarr9.countP (fun e => iless_than 47 e (tvint 47 10)) = 1 ∧
    (bfind iarr9 9 (tvint 47 10) (iless_than 47)).ret
      = some ((iarr9.countP (fun e => iless_than 47 e (tvint 47 10)) : Nat) : Int) :=
  ⟨⟨by simp [iarr9], iless_than_strictWeak 47 _,
      by simp [SortedUnder, iless_than, iarr9, inttv, tvint]⟩,
    by simp [iless_than, iarr9, inttv, tvint, List.countP_cons],
    bfind_eq_count iarr9 9 (tvint 47 10) (iless_than 47) (by simp [iarr9])
      (iless_than_strictWeak 47 _) (by simp [SortedUnder, iless_than, iarr9, inttv, tvint])⟩

/-- C2 as stated fails: `skewed_less` is a strict weak ordering on the elements
of `[1, 2, 3]`, which is sorted under it, yet for the target `0` the search
returns `0` while one element compares less than the target. -/
theorem bfind_elements_only_counterexample :
    StrictWeakOn skewed_less [1, 2, 3] ∧ SortedUnder skewed_less [1, 2, 3] ∧
    (bfind [1, 2, 3] 3 0 skewed_less).ret = some 0 ∧
    [1, 2, 3].countP (fun e => skewed_less e 0) = 1 ∧
    (bfind [1, 2, 3] 3 0 skewed_less).ret
      ≠ some (([1, 2, 3].countP (fun e => skewed_less e 0) : Nat) : Int) := by
  refine ⟨⟨⟨?_, ?_⟩, ?_⟩, ?_, ?_, ?_, ?_⟩
  · simp [skewed_less]
  · simp [skewed_less]
  · simp [skewed_less, Equivalent]
  · simp [SortedUnder, skewed_less]
  · simp [bfind, bfindLoop, readAt, skewed_less]
  · simp [skewed_less, List.countP_cons]
  · simp [bfind, bfindLoop, readAt, skewed_less, List.countP_cons]

/-- C2, amended: when `cmp` is a strict weak ordering on the elements, `arr` is
sorted ascending under it, and in addition `cmp · val` respects the order of the
elements (an element not greater than one that is less than `val` is less than
`val`), `bfind` returns the number of elements `e` with `cmp e val` true. -/
theorem bfind_count_of_compat {α : Type} (arr : List α) (n : Int) (val : α)
    (cmp : α → α → Bool) (hn : n = arr.length) (hswo : StrictWeakOn cmp arr)
    (hs : SortedUnder cmp arr)
    (hcompat : ∀ a ∈ arr, ∀ b ∈ arr, cmp b a = false → cmp b val = true → cmp a val = true) :
    (bfind arr n val cmp).ret = some ((arr.countP (fun e => cmp e val) : Nat) : Int) := by
  have hpw : List.Pairwise (fun a b => cmp b a = false) arr :=
    SortedUnder.pairwise hswo arr (fun e he => he) hs
  obtain ⟨r, hret, _, _, _, hcount⟩ :=
    bfind_of_partitioned arr n val cmp hn (partitioned_of_compat cmp val arr hpw hcompat)
  rw [hret, hcount]

/-- C2 amended, at `[1, 2, 3]` under `skewed_less` with the target `4`, against
which the comparator is the integer order. -/
theorem bfind_count_of_compat_witness :
    ((3 : Int) = ([1, 2, 3] : List Int).length ∧ StrictWeakOn skewed_less [1, 2, 3] ∧
      SortedUnder skewed_less [1, 2, 3] ∧
      (∀ a ∈ ([1, 2, 3] : List Int), ∀ b ∈ ([1, 2, 3] : List Int),
        skewed_less b a = false → skewed_less b 4 = true → skewed_less a 4 = true)) ∧
    (bfind [1, 2, 3] 3 4 skewed_less).ret
      = some (([1, 2, 3].countP (fun e => skewed_less e 4) : Nat) : Int) :=
  ⟨⟨by simp, ⟨⟨by simp [skewed_less], by simp [skewed_less]⟩,
        by simp [skewed_less, Equivalent]⟩,
      by simp [SortedUnder, skewed_less], by simp [skewed_less]⟩,
    bfind_count_of_compat [1, 2, 3] 3 4 skewed_less (by simp)
      ⟨⟨by simp [skewed_less], by simp [skewed_less]⟩, by simp [skewed_less, Equivalent]⟩
      (by simp [SortedUnder, skewed_less]) (by simp [skewed_less])⟩


/-- C3: on a sequence sorted ascending under a strict weak ordering, for a target
equivalent to some element, `bfind` returns the index of the first element of
the run equivalent to the target: the element there is equivalent to `val` and
no element before it is. -/
theorem bfind_first_of_run {α : Type} (arr : List α) (n : Int) (val : α)
    (cmp : α → α → Bool) (hn : n = arr.length) (hswo : StrictWeakOn cmp (val :: arr))
    (hs : SortedUnder cmp arr) (hocc : ∃ x ∈ arr, Equivalent cmp x val) :
    ∃ r : Nat, (bfind arr n val cmp).ret = some (r : Int) ∧
      (∃ e, arr[r]? = some e ∧ Equivalent cmp e val) ∧
      (∀ j e, j < r → arr[j]? = some e → ¬ Equivalent cmp e val) := by
  obtain ⟨r, hret, _, hL, _, _, hrun⟩ := bfind_sorted arr n val cmp hn hswo hs
  obtain ⟨x, hx, hxv⟩ := hocc
  refine ⟨r, hret, hrun x hx hxv, ?_⟩
  intro j e hj hje hequiv
  have := hL j e hj hje
  rw [hequiv.1] at this
  exact absurd this (by decide)

/-- C3, at the eight-element array of `perftv` with target `20`: the index
returned is `4`, the start of the run of `20`. -/
theorem bfind_first_of_run_witness :
    ((8 : Int) = iarr8.length ∧ StrictWeakOn (iless_than 47) (tvint 47 20 :: iarr8) ∧
      SortedUnder (iless_than 47) iarr8 ∧
      (∃ x ∈ iarr8, Equivalent (iless_than 47) x (tvint 47 20))) ∧
    (bfind iarr8 8 (tvint 47 20) (iless_than 47)).ret = some 4 ∧
    ∃ r : Nat, (bfind iarr8 8 (tvint 47 20) (iless_than 47)).ret = some (r : Int) ∧
      (∃ e, iarr8[r]? = some e ∧ Equivalent (iless_than 47) e (tvint 47 20)) ∧
      (∀ j e, j < r → iarr8[j]? = some e → ¬ Equivalent (iless_than 47) e (tvint 47 20)) :=
  ⟨⟨by simp [iarr8], iless_than_strictWeak 47 _,
      by simp [SortedUnder, iless_than, iarr8, inttv, tvint],
      ⟨tvint 47 20, by simp [iarr8], by simp [Equivalent, iless_than]⟩⟩,
    by simp [bfind, bfindLoop, readAt, iless_than, iarr8, inttv, tvint],
    bfind_first_of_run iarr8 8 (tvint 47 20) (iless_than 47) (by simp [iarr8])
      (iless_than_strictWeak 47 _) (by simp [SortedUnder, iless_than, iarr8, inttv, tvint])
      ⟨tvint 47 20, by simp [iarr8], by simp [Equivalent, iless_than]⟩⟩

/-- C5: when every element compares less than the target, `bfind` returns `n`,
whatever the comparator otherwise does. -/
theorem bfind_above_all {α : Type} (arr : List α) (n : Int) (val : α)
    (cmp : α → α → Bool) (hn : n = arr.length) (hall : ∀ e ∈ arr, cmp e val = true) :
    (bfind arr n val cmp).ret = some n := by
  obtain ⟨r, hret, _, hle, _, hR⟩ :=
    bfindLoop_boundary arr val cmp n.toNat 0 n (le_refl _) (le_refl _) (by omega) (by omega)
  have hrn : r = n := by
    by_contra hne
    obtain ⟨e, he, hc⟩ := hR (by omega)
    have := hall e (List.getElem?_mem he)
    rw [hc] at this
    exact absurd this (by decide)
  rw [show bfind arr n val cmp = bfindLoop arr val cmp 0 n from rfl, hret, hrn]

/-- C5, at the nine-element array of `perftv` with target `41`: returns `9`. -/
theorem bfind_above_all_witness :
    ((9 : Int) = iarr9.length ∧ ∀ e ∈ iarr9, iless_than 47 e (tvint 47 41) = true) ∧
    (bfind iarr9 9 (tvint 47 41) (iless_than 47)).ret = some 9 :=
  ⟨⟨by simp [iarr9], by simp [iless_than, iarr9, inttv, tvint]⟩,
    bfind_above_all iarr9 9 (tvint 47 41) (iless_than 47) (by simp [iarr9])
      (by simp [iless_than, iarr9, inttv, tvint])⟩

/-- C6: under a strict ordering, when the target compares less than every
element, `bfind` returns `0`; on the empty sequence it returns `0` without
executing an iteration, hence without calling `cmp`. -/
theorem bfind_below_all {α : Type} (arr : List α) (n : Int) (val : α)
    (cmp : α → α → Bool) (hn : n = arr.length) (hso : StrictOn cmp (val :: arr))
    (hall : ∀ e ∈ arr, cmp val e = true) :
    (bfind arr n val cmp).ret = some 0 ∧
      (n = 0 → bfind arr n val cmp = ⟨[], some 0⟩) := by
  constructor
  · obtain ⟨r, hret, h0, _, hL, _⟩ :=
      bfindLoop_boundary arr val cmp n.toNat 0 n (le_refl _) (le_refl _) (by omega) (by omega)
    have hr0 : r = 0 := by
      by_contra hne
      obtain ⟨e, he, hc⟩ := hL (by omega)
      have hmem : e ∈ arr := List.getElem?_mem he
      have := hso.asymm (List.mem_cons_self _ _) (List.mem_cons_of_mem _ hmem) (hall e hmem)
      rw [hc] at this
      exact absurd this (by decide)
    rw [show bfind arr n val cmp = bfindLoop arr val cmp 0 n from rfl, hret, hr0]
  · intro h0
    exact bfindLoop_exit arr val cmp 0 n (by omega)

/-- C6, at the nine-element array of `perftv` with target `0`: returns `0`. -/
theorem bfind_below_all_witness :
    ((9 : Int) = iarr9.length ∧ StrictOn (iless_than 47) (tvint 47 0 :: iarr9) ∧
      ∀ e ∈ iarr9, iless_than 47 (tvint 47 0) e = true) ∧
    ((bfind iarr9 9 (tvint 47 0) (iless_than 47)).ret = some 0 ∧
      ((9 : Int) = 0 → bfind iarr9 9 (tvint 47 0) (iless_than 47) = ⟨[], some 0⟩)) :=
  ⟨⟨by simp [iarr9], (iless_than_strictWeak 47 _).toStrictOn,
      by simp [iless_than, iarr9, inttv, tvint]⟩,
    bfind_below_all iarr9 9 (tvint 47 0) (iless_than 47) (by simp [iarr9])
      (iless_than_strictWeak 47 _).toStrictOn (by simp [iless_than, iarr9, inttv, tvint])⟩

/-- C9 as stated fails, on the source's own test (`utval.c` line 313): over the
sorted nine-element array the target `0` makes `bfind` return `0`, an index
inside the sequence, and the element there, `5`, is greater than the target:
`cmp val arr[low]` is true. -/
theorem bfind_postcondition_counterexample :
    (9 : Int) = iarr9.length ∧ StrictWeakOn (iless_than 47) (tvint 47 0 :: iarr9) ∧
    SortedUnder (iless_than 47) iarr9 ∧
    (bfind iarr9 9 (tvint 47 0) (iless_than 47)).ret = some 0 ∧ (0 : Int) < 9 ∧
    readAt iarr9 0 = some (tvint 47 5) ∧
    iless_than 47 (tvint 47 0) (tvint 47 5) = true := by
  refine ⟨by simp [iarr9], iless_than_strictWeak 47 _, ?_, ?_, by decide, ?_, ?_⟩
  · simp [SortedUnder, iless_than, iarr9, inttv, tvint]
  · simp [bfind, bfindLoop, readAt, iless_than, iarr9, inttv, tvint]
  · simp [readAt, iarr9]
  · simp [iless_than, inttv, tvint]

/-- C9, amended: on a sequence sorted ascending under a strict weak ordering,
when `bfind` returns an index `low` inside the sequence the element there is
greater than or equal to the target, `val <= tbl[low]`: `cmp arr[low] val` is
false.  It is also less than or equal to the target, `cmp val arr[low]` false,
exactly when some element of the sequence is equivalent to the target. -/
theorem bfind_postcondition {α : Type} (arr : List α) (n : Int) (val : α)
    (cmp : α → α → Bool) (hn : n = arr.length) (hswo : StrictWeakOn cmp (val :: arr))
    (hs : SortedUnder cmp arr) (low : Int)
    (hret : (bfind arr n val cmp).ret = some low) (hlow : low < n) :
    ∃ e, readAt arr low = some e ∧ cmp e val = false ∧
      (cmp val e = false ↔ ∃ x ∈ arr, Equivalent cmp x val) := by
  obtain ⟨r, hret', hlen, _, hR, _, hrun⟩ := bfind_sorted arr n val cmp hn hswo hs
  rw [hret] at hret'
  have hlr : low = (r : Int) := Option.some.inj hret'
  have hr : r < arr.length := by omega
  have hread : readAt arr low = some arr[r] := by
    subst hlr
    simp [readAt, List.getElem?_eq_getElem hr]
  have hge : cmp arr[r] val = false := hR r _ (le_refl _) (List.getElem?_eq_getElem hr)
  refine ⟨arr[r], hread, hge, ?_, ?_⟩
  · intro hle
    exact ⟨arr[r], List.getElem_mem hr, hge, hle⟩
  · rintro ⟨x, hx, hxv⟩
    obtain ⟨e, he, hev⟩ := hrun x hx hxv
    rw [List.getElem?_eq_getElem hr] at he
    cases he
    exact hev.2

/-- C9 amended, at the nine-element array of `perftv` with target `10`: the index
returned is `1`, and the element there is equivalent to the target. -/
theorem bfind_postcondition_witness :
    ((9 : Int) = iarr9.length ∧ StrictWeakOn (iless_than 47) (tvint 47 10 :: iarr9) ∧
      SortedUnder (iless_than 47) iarr9 ∧
      (bfind iarr9 9 (tvint 47 10) (iless_than 47)).ret = some 1 ∧ (1 : Int) < 9) ∧
    ∃ e, readAt iarr9 1 = some e ∧ iless_than 47 e (tvint 47 10) = false ∧
      (iless_than 47 (tvint 47 10) e = false ↔
        ∃ x ∈ iarr9, Equivalent (iless_than 47) x (tvint 47 10)) :=
  ⟨⟨by simp [iarr9], iless_than_strictWeak 47 _,
      by simp [SortedUnder, iless_than, iarr9, inttv, tvint],
      by simp [bfind, bfindLoop, readAt, iless_than, iarr9, inttv, tvint], by decide⟩,
    bfind_postcondition iarr9 9 (tvint 47 10) (iless_than 47) (by simp [iarr9])
      (iless_than_strictWeak 47 _) (by simp [SortedUnder, iless_than, iarr9, inttv, tvint])
      1 (by simp [bfind, bfindLoop, readAt, iless_than, iarr9, inttv, tvint]) (by decide)⟩

/-- C4: the two variants of `bfind` return the same index and read, hence hand
to `cmp`, the same sequence of indices, for every `n` (zero and negative
included), every sequence, target and comparator. -/
theorem bfind2_eq_bfind {α : Type} (arr : List α) (n : Int) (val : α)
    (cmp : α → α → Bool) :
    (bfind2 arr n val cmp).ret = (bfind arr n val cmp).ret ∧
      (bfind2 arr n val cmp).iters.map Iter2.mid = (bfind arr n val cmp).iters.map Iter.mid := by
  have h := bfind2Loop_eq arr val cmp (n - 0).toNat 0 n (le_refl _)
  rw [Int.sub_zero] at h
  refine ⟨h.1, ?_⟩
  show (bfind2Loop arr val cmp 0 n).iters.map Iter2.mid
    = (bfindLoop arr val cmp 0 n).iters.map Iter.mid
  rw [← h.2, List.map_map]
  rfl

/-- C7: `bfind` is total; it executes no iteration when `n <= 0`, at most
`floor(log2 n) + 1` iterations (each with at most one call of `cmp`) when
`n >= 1`, and the window of an iteration is at most half the window of the
iteration before, whatever the sequence, the target and the comparator. -/
theorem bfind_cmp_calls {α : Type} (arr : List α) (n : Int) (val : α)
    (cmp : α → α → Bool) :
    (n ≤ 0 → (bfind arr n val cmp).iters = []) ∧
      (1 ≤ n → (bfind arr n val cmp).iters.length ≤ Nat.log 2 n.toNat + 1) ∧
      List.Chain' (fun a b : Iter => b.cnt ≤ a.cnt / 2) (bfind arr n val cmp).iters := by
  refine ⟨?_, ?_, ?_⟩
  · intro h
    show (bfindLoop arr val cmp 0 n).iters = []
    rw [bfindLoop_exit arr val cmp 0 n h]
  · intro h
    exact bfindLoop_iters_length arr val cmp n.toNat 0 n (le_refl _) (by omega)
  · exact (bfindLoop_halving arr val cmp n.toNat 0 n (le_refl _)).2

/-- C7, at the nine-element array of `perftv` with target `10`: four iterations,
the bound `floor(log2 9) + 1`. -/
theorem bfind_cmp_calls_witness :
    (bfind iarr9 9 (tvint 47 10) (iless_than 47)).iters.length = 4 ∧
    Nat.log 2 (9 : Int).toNat + 1 = 4 ∧
    (((9 : Int) ≤ 0 → (bfind iarr9 9 (tvint 47 10) (iless_than 47)).iters = []) ∧
      ((1 : Int) ≤ 9 → (bfind iarr9 9 (tvint 47 10) (iless_than 47)).iters.length
        ≤ Nat.log 2 (9 : Int).toNat + 1) ∧
      List.Chain' (fun a b : Iter => b.cnt ≤ a.cnt / 2)
        (bfind iarr9 9 (tvint 47 10) (iless_than 47)).iters) :=
  ⟨by simp [bfind, bfindLoop, readAt, iless_than, iarr9, inttv, tvint],
    by simp [Nat.log],
    bfind_cmp_calls iarr9 9 (tvint 47 10) (iless_than 47)⟩

/-- C10: on a sequence of `n` values both variants of `bfind` read inside the
sequence only and return an index of `[0, n]`, whatever the comparator: every
iteration of the first variant has `0 <= low`, `0 < cnt`, `low + cnt <= n` and
reads `mid = low + (cnt >> 1)` with `0 <= mid < n`; every iteration of the second
has `0 <= min < max <= n` and reads `0 <= mid < n`. -/
theorem bfind_in_bounds {α : Type} (arr : List α) (n : Int) (val : α)
    (cmp : α → α → Bool) (hn : n = arr.length) :
    (∀ it ∈ (bfind arr n val cmp).iters,
        0 ≤ it.low ∧ 0 < it.cnt ∧ it.low + it.cnt ≤ n ∧ it.mid = it.low + it.cnt / 2 ∧
          0 ≤ it.mid ∧ it.mid < n ∧ (readAt arr it.mid).isSome = true) ∧
      (∃ r : Int, (bfind arr n val cmp).ret = some r ∧ 0 ≤ r ∧ r ≤ n) ∧
      (∀ it ∈ (bfind2 arr n val cmp).iters,
        0 ≤ it.min ∧ it.min < it.max ∧ it.max ≤ n ∧ 0 ≤ it.mid ∧ it.mid < n ∧
          (readAt arr it.mid).isSome = true) ∧
      (∃ r : Int, (bfind2 arr n val cmp).ret = some r ∧ 0 ≤ r ∧ r ≤ n) := by
  have hwin := bfindLoop_window arr val cmp n.toNat 0 n (le_refl _)
  obtain ⟨r, hret, h0, hle, _, _⟩ :=
    bfindLoop_boundary arr val cmp n.toNat 0 n (le_refl _) (le_refl _) (by omega) (by omega)
  have h2 := bfind2Loop_eq arr val cmp (n - 0).toNat 0 n (le_refl _)
  rw [Int.sub_zero] at h2
  have hfirst : ∀ it ∈ (bfindLoop arr val cmp 0 n).iters,
      0 ≤ it.low ∧ 0 < it.cnt ∧ it.low + it.cnt ≤ n ∧ it.mid = it.low + it.cnt / 2 ∧
        0 ≤ it.mid ∧ it.mid < n ∧ (readAt arr it.mid).isSome = true := by
    intro it hit
    obtain ⟨a, b, c, d⟩ := hwin it hit
    have hm0 : 0 ≤ it.mid := by omega
    have hm1 : it.mid < arr.length := by omega
    obtain ⟨e, he, _⟩ := readAt_eq_some arr it.mid hm0 hm1
    exact ⟨a, c, by omega, d, hm0, by omega, by rw [he]; rfl⟩
  refine ⟨hfirst, ⟨r, hret, h0, by omega⟩, ?_, ⟨r, by rw [← hret]; exact h2.1, h0, by omega⟩⟩
  intro it hit
  have hmem : (⟨it.min, it.max - it.min, it.mid⟩ : Iter) ∈ (bfindLoop arr val cmp 0 n).iters := by
    rw [← h2.2]
    exact List.mem_map.mpr ⟨it, hit, rfl⟩
  obtain ⟨a, c, b, _, hm0, hm1, hrd⟩ := hfirst _ hmem
  simp only at a c b hm0 hm1 hrd
  exact ⟨a, by omega, by omega, hm0, hm1, hrd⟩

/-- C10, at the nine-element array of `perftv` with target `10`. -/
theorem bfind_in_bounds_witness :
    (9 : Int) = iarr9.length ∧
    (bfind iarr9 9 (tvint 47 10) (iless_than 47)).iters.map Iter.mid = [4, 2, 1, 0] ∧
    ((∀ it ∈ (bfind iarr9 9 (tvint 47 10) (iless_than 47)).iters,
        0 ≤ it.low ∧ 0 < it.cnt ∧ it.low + it.cnt ≤ 9 ∧ it.mid = it.low + it.cnt / 2 ∧
          0 ≤ it.mid ∧ it.mid < 9 ∧ (readAt iarr9 it.mid).isSome = true) ∧
      (∃ r : Int, (bfind iarr9 9 (tvint 47 10) (iless_than 47)).ret = some r ∧ 0 ≤ r ∧ r ≤ 9) ∧
      (∀ it ∈ (bfind2 iarr9 9 (tvint 47 10) (iless_than 47)).iters,
        0 ≤ it.min ∧ it.min < it.max ∧ it.max ≤ 9 ∧ 0 ≤ it.mid ∧ it.mid < 9 ∧
          (readAt iarr9 it.mid).isSome = true) ∧
      (∃ r : Int, (bfind2 iarr9 9 (tvint 47 10) (iless_than 47)).ret = some r ∧
        0 ≤ r ∧ r ≤ 9)) :=
  ⟨by simp [iarr9],
    by simp [bfind, bfindLoop, readAt, iless_than, iarr9, inttv, tvint],
    bfind_in_bounds iarr9 9 (tvint 47 10) (iless_than 47) (by simp [iarr9])⟩

/-! ## The claim about the codec -/

/-- C8: with a payload field of at least 47 bits, every signed integer `i` with
`|i| <= 2^46 - 1` makes `tvint i` an integer value (`tvisint` is true) from which
`inttv` reads `i` back. -/
theorem tvint_roundtrip (w : Nat) (hw : 47 ≤ w) (i : Int)
    (hlo : -(2 ^ 46 - 1) ≤ i) (hhi : i ≤ 2 ^ 46 - 1) :
    tvisint (tvint w i) = true ∧ inttv w (tvint w i) = i := by
  refine ⟨by simp [tvisint, tvint], ?_⟩
  have hsplit : (2 : Int) ^ w = 2 * 2 ^ (w - 1) := by
    have : w = (w - 1) + 1 := by omega
    conv_lhs => rw [this, pow_succ]
    ring
  have h46 : (2 : Int) ^ 46 ≤ 2 ^ (w - 1) :=
    pow_le_pow_right₀ (by norm_num) (by omega)
  have hpos : (0 : Int) < 2 ^ (w - 1) := by positivity
  have hres := emod_of_small (2 ^ (w - 1)) i (by omega) (by omega) hpos
  unfold inttv
  rw [tvint_payload, hsplit]
  by_cases h0 : 0 ≤ i
  · rw [hres.1 h0]
    have : i < 2 ^ (w - 1) := by omega
    simp [this]
  · rw [hres.2 (by omega)]
    have : ¬ i + 2 * 2 ^ (w - 1) < 2 ^ (w - 1) := by omega
    simp [this]

/-- C8, at the largest tested magnitude `2^46 - 1` and a field of 47 bits. -/
theorem tvint_roundtrip_witness :
    ((47 : Nat) ≤ 47 ∧ -(2 ^ 46 - 1) ≤ ((2 : Int) ^ 46 - 1) ∧
      ((2 : Int) ^ 46 - 1) ≤ 2 ^ 46 - 1) ∧
    (tvisint (tvint 47 (2 ^ 46 - 1)) = true ∧
      inttv 47 (tvint 47 (2 ^ 46 - 1)) = 2 ^ 46 - 1) :=
  ⟨⟨le_refl _, by norm_num, le_refl _⟩,
    tvint_roundtrip 47 (le_refl _) (2 ^ 46 - 1) (by norm_num) (le_refl _)⟩

/-! ## The assertions of `perftv` -/

/-- The assertions of the first `bfind` block of `perftv` (`utval.c` line 283):
the targets of the eight-element array give `idx = {0,1,1,1,4,4,4,7}`. -/
theorem perftv_iarr8 :
    iarr8.map (fun v => (bfind iarr8 8 v (iless_than 47)).ret)
      = [some 0, some 1, some 1, some 1, some 4, some 4, some 4, some 7] := by
  simp [bfind, bfindLoop, readAt, iless_than, iarr8, inttv, tvint]

/-- The assertions of the second `bfind` block of `perftv` (`utval.c` lines 307,
313 and 314): the targets of the nine-element array give
`idx = {0,1,1,1,4,5,5,5,8}`, the target `0` gives `0` and the target `41`
gives `9`. -/
theorem perftv_iarr9 :
    iarr9.map (fun v => (bfind iarr9 9 v (iless_than 47)).ret)
        = [some 0, some 1, some 1, some 1, some 4, some 5, some 5, some 5, some 8] ∧
      (bfind iarr9 9 (tvint 47 0) (iless_than 47)).ret = some 0 ∧
      (bfind iarr9 9 (tvint 47 41) (iless_than 47)).ret = some 9 := by
  refine ⟨?_, ?_, ?_⟩ <;> simp [bfind, bfindLoop, readAt, iless_than, iarr9, inttv, tvint]

/-- The boundary magnitudes printed by `checktv` (`utval.c` lines 131-136) read
back unchanged through a payload field of 47 bits. -/
theorem checktv_boundaries :
    ∀ i ∈ [(2 : Int) ^ 44 - 1, -(2 ^ 44) + 1, 2 ^ 45 - 1, -(2 ^ 45) + 1, 2 ^ 46 - 1,
        -(2 ^ 46) + 1],
      tvisint (tvint 47 i) = true ∧ inttv 47 (tvint 47 i) = i := by
  simp [tvisint, inttv, tvint]

end Tval
